import Mathlib

/-!
Shallow embedding of the EEG kiosk monitor component
(`src/unnamed/part_000`, an `EegMonitorCanvas` React component).

JavaScript numbers are modelled as rationals (`ℚ`); every arithmetic
operation the component performs on the values in scope is exact, so the
rational model agrees with the double-precision evaluation on the inputs
considered. Mutable fields become explicit state passing; the `try/catch`
around message handling becomes a total function that returns the state
reached when the body threw.
-/

namespace EegKiosk

/-- A buffered sample: `interface Sample { timestamp: number; value: number }`. -/
structure Sample where
  timestamp : ℚ
  value : ℚ
deriving DecidableEq

/-- A decoded batch message:
`interface EegBatchData { channels: number[][]; timestamp: number }`. -/
structure EegBatchData where
  channels : List (List ℚ)
  timestamp : ℚ
deriving DecidableEq

/-- `const SAMPLE_RATE = 250`. -/
def SAMPLE_RATE : ℚ := 250

/-- `const WINDOW_DURATION = 2000`. -/
def WINDOW_DURATION : ℚ := 2000

/-- `const GRAPH_HEIGHT = 100`. -/
def GRAPH_HEIGHT : ℚ := 100

/-- `const GRAPH_WIDTH = 400`. -/
def GRAPH_WIDTH : ℚ := 400

/-- `const WINDOW_SIZE = Math.ceil((SAMPLE_RATE * WINDOW_DURATION) / 1000)`,
which evaluates to `500`. -/
def WINDOW_SIZE : ℕ := ((SAMPLE_RATE * WINDOW_DURATION) / 1000 : ℚ).ceil.toNat

/-- State of `class RingBuffer`: the private `capacity` constructor argument,
the `buffer` array and the `pointer` index. -/
structure RingBuffer where
  capacity : ℕ
  buffer : List Sample
  pointer : ℕ
deriving DecidableEq

/-- The `RingBuffer` constructor:
`this.buffer = new Array(capacity).fill({ timestamp: 0, value: 0 })`, with
`pointer` initialised to `0`. -/
def RingBuffer.init (capacity : ℕ) : RingBuffer :=
  ⟨capacity, List.replicate capacity ⟨0, 0⟩, 0⟩

/-- `push(sample)`:
`this.buffer[this.pointer] = sample; this.pointer = (this.pointer + 1) % this.capacity`. -/
def RingBuffer.push (rb : RingBuffer) (sample : Sample) : RingBuffer :=
  ⟨rb.capacity, rb.buffer.set rb.pointer sample, (rb.pointer + 1) % rb.capacity⟩

/-- `getArray()`:
`[...this.buffer.slice(this.pointer), ...this.buffer.slice(0, this.pointer)]`. -/
def RingBuffer.getArray (rb : RingBuffer) : List Sample :=
  rb.buffer.drop rb.pointer ++ rb.buffer.take rb.pointer

/-- A sequence of `push` calls, in order. -/
def RingBuffer.pushAll (rb : RingBuffer) (samples : List Sample) : RingBuffer :=
  samples.foldl RingBuffer.push rb

/-- Well-formedness of a ring-buffer state: the backing array has exactly
`capacity` slots and the pointer is in bounds. Holds for every state the
component ever constructs (capacity `WINDOW_SIZE > 0`). -/
def RingBuffer.WF (rb : RingBuffer) : Prop :=
  rb.buffer.length = rb.capacity ∧ rb.pointer < rb.capacity

/-- `const sampleInterval = 1000 / SAMPLE_RATE` inside `handleMessage`. -/
def sampleInterval : ℚ := 1000 / SAMPLE_RATE

/-- The inner loop of `handleMessage` for one channel:
`channel.forEach((value, i) => { const timestamp = data.timestamp + (i * sampleInterval);
 ... push({ timestamp, value: value }) })`, unrolled into the list of samples
pushed, starting from loop counter `i`. -/
def channelSamples (t : ℚ) : List ℚ → ℕ → List Sample
  | [], _ => []
  | v :: vs, i => ⟨t + i * sampleInterval, v⟩ :: channelSamples t vs (i + 1)

/-- The outer loop of `handleMessage`:
`data.channels.forEach((channel, channelIndex) => { ... dataRef.current[channelIndex].push(...) })`.
When `channelIndex` is outside the buffer array, `dataRef.current[channelIndex]`
is `undefined` and `.push` throws a `TypeError`; the loop aborts there and the
surrounding `catch` keeps the state already reached. -/
def applyChannels (t : ℚ) : List RingBuffer → List (List ℚ) → ℕ → List RingBuffer
  | bufs, [], _ => bufs
  | bufs, ch :: rest, idx =>
    if h : idx < bufs.length then
      applyChannels t
        (bufs.set idx ((bufs.get ⟨idx, h⟩).pushAll (channelSamples t ch 0)))
        rest (idx + 1)
    else bufs

/-- `handleMessage` acting on the four ring buffers. The argument is the
outcome of `JSON.parse(event.data)`: `none` models a parse failure, in which
case the `catch` branch runs and the state is returned unchanged. -/
def handleMessage (bufs : List RingBuffer) (parsed : Option EegBatchData) :
    List RingBuffer :=
  match parsed with
  | none => bufs
  | some data => applyChannels data.timestamp bufs data.channels 0

/-- The per-frame selection in `draw`:
`buffer.getArray().filter(s => s.timestamp >= startTime && s.timestamp <= now)`
with `startTime = now - WINDOW_DURATION`. -/
def selectSamples (now : ℚ) (samples : List Sample) : List Sample :=
  samples.filter fun s =>
    decide (now - WINDOW_DURATION ≤ s.timestamp) && decide (s.timestamp ≤ now)

/-- The horizontal mapping in `draw`:
`const x = GRAPH_WIDTH - ((now - sample.timestamp) * GRAPH_WIDTH / WINDOW_DURATION)`. -/
def xCoord (now : ℚ) (s : Sample) : ℚ :=
  GRAPH_WIDTH - ((now - s.timestamp) * GRAPH_WIDTH / WINDOW_DURATION)

/-- Insertion into a timestamp-sorted list, used to model
`.sort((a, b) => a.timestamp - b.timestamp)`: the comparator orders samples by
timestamp, and any comparison sort realises that order. -/
def insertSample (s : Sample) : List Sample → List Sample
  | [] => [s]
  | t :: ts => if s.timestamp ≤ t.timestamp then s :: t :: ts else t :: insertSample s ts

/-- Sorting by timestamp, modelling `.sort((a, b) => a.timestamp - b.timestamp)`. -/
def sortSamples : List Sample → List Sample
  | [] => []
  | s :: ss => insertSample s (sortSamples ss)

/-- The vertex list of the polyline `draw` emits for one buffer:
`buffer.getArray().filter(...).sort((a, b) => a.timestamp - b.timestamp)`. -/
def drawVertices (now : ℚ) (samples : List Sample) : List Sample :=
  sortSamples (selectSamples now samples)

/-- The vertical mapping:
`const scale = (value) => { const min = -1.5; const max = 1.5;
 return GRAPH_HEIGHT - ((value - min) / (max - min) * GRAPH_HEIGHT) }`. -/
def yScale (value : ℚ) : ℚ :=
  let lo : ℚ := -1.5
  let hi : ℚ := 1.5
  GRAPH_HEIGHT - ((value - lo) / (hi - lo) * GRAPH_HEIGHT)

/-! ### Ring-buffer helper lemmas -/

theorem RingBuffer.wf_init (c : ℕ) (hc : 0 < c) : (RingBuffer.init c).WF := by
  constructor
  · simp [RingBuffer.init]
  · simpa [RingBuffer.init] using hc

theorem RingBuffer.capacity_push (rb : RingBuffer) (s : Sample) :
    (rb.push s).capacity = rb.capacity := rfl

theorem RingBuffer.wf_push (rb : RingBuffer) (s : Sample) (h : rb.WF) :
    (rb.push s).WF := by
  obtain ⟨hlen, hptr⟩ := h
  refine ⟨?_, ?_⟩
  · simp [RingBuffer.push, hlen]
  · have hc : 0 < rb.capacity := by omega
    simpa [RingBuffer.push] using Nat.mod_lt _ hc

theorem RingBuffer.wf_pushAll (rb : RingBuffer) (xs : List Sample) (h : rb.WF) :
    (rb.pushAll xs).WF := by
  induction xs generalizing rb with
  | nil => exact h
  | cons x xs ih => exact ih _ (rb.wf_push x h)

theorem RingBuffer.capacity_pushAll (rb : RingBuffer) (xs : List Sample) :
    (rb.pushAll xs).capacity = rb.capacity := by
  induction xs generalizing rb with
  | nil => rfl
  | cons x xs ih => simpa [RingBuffer.pushAll] using ih (rb.push x)

theorem RingBuffer.length_getArray (rb : RingBuffer) (h : rb.WF) :
    rb.getArray.length = rb.capacity := by
  obtain ⟨hlen, hptr⟩ := h
  simp [RingBuffer.getArray, hlen]
  omega

theorem RingBuffer.getArray_init (c : ℕ) :
    (RingBuffer.init c).getArray = List.replicate c ⟨0, 0⟩ := by
  simp [RingBuffer.init, RingBuffer.getArray]

/-- One push shifts the logical content one slot: the oldest sample is dropped
and the new one is appended. -/
theorem RingBuffer.getArray_push (rb : RingBuffer) (s : Sample) (h : rb.WF) :
    (rb.push s).getArray = rb.getArray.drop 1 ++ [s] := by
  obtain ⟨hlen, hptr⟩ := h
  have hplen : rb.pointer < rb.buffer.length := hlen ▸ hptr
  have hset : rb.buffer.set rb.pointer s =
      rb.buffer.take rb.pointer ++ s :: rb.buffer.drop (rb.pointer + 1) := by
    rw [List.set_eq_take_append_cons_drop]
    exact if_pos hplen
  have hlen_take : (rb.buffer.take rb.pointer).length = rb.pointer := by
    simp [List.length_take]
    omega
  -- the first block of `getArray`, `buffer.drop pointer`, is nonempty
  have hga_drop : rb.getArray.drop 1 =
      rb.buffer.drop (rb.pointer + 1) ++ rb.buffer.take rb.pointer := by
    rw [RingBuffer.getArray, List.drop_append_eq_append_drop]
    have h1 : (1 : ℕ) - (rb.buffer.drop rb.pointer).length = 0 := by
      simp [List.length_drop]
      omega
    rw [h1, List.drop_drop, List.drop_zero]
  rcases Nat.lt_or_ge (rb.pointer + 1) rb.capacity with hlt | hge
  · have hmod : (rb.pointer + 1) % rb.capacity = rb.pointer + 1 := Nat.mod_eq_of_lt hlt
    have hA : (rb.buffer.take rb.pointer ++ s :: rb.buffer.drop (rb.pointer + 1)).drop
        (rb.pointer + 1) = rb.buffer.drop (rb.pointer + 1) := by
      rw [List.drop_append_eq_append_drop, hlen_take]
      have h2 : List.drop (rb.pointer + 1) (rb.buffer.take rb.pointer) = [] :=
        List.drop_eq_nil_of_le (by omega)
      have h3 : rb.pointer + 1 - rb.pointer = 1 := by omega
      rw [h2, h3]
      simp
    have hB : (rb.buffer.take rb.pointer ++ s :: rb.buffer.drop (rb.pointer + 1)).take
        (rb.pointer + 1) = rb.buffer.take rb.pointer ++ [s] := by
      rw [List.take_append_eq_append_take, hlen_take]
      have h2 : List.take (rb.pointer + 1) (rb.buffer.take rb.pointer) =
          rb.buffer.take rb.pointer := List.take_of_length_le (by omega)
      have h3 : rb.pointer + 1 - rb.pointer = 1 := by omega
      rw [h2, h3]
      simp
    calc (rb.push s).getArray
        = (rb.buffer.set rb.pointer s).drop (rb.pointer + 1) ++
            (rb.buffer.set rb.pointer s).take (rb.pointer + 1) := by
          simp only [RingBuffer.push, RingBuffer.getArray, hmod]
      _ = rb.buffer.drop (rb.pointer + 1) ++ (rb.buffer.take rb.pointer ++ [s]) := by
          rw [hset, hA, hB]
      _ = (rb.buffer.drop (rb.pointer + 1) ++ rb.buffer.take rb.pointer) ++ [s] := by
          rw [List.append_assoc]
      _ = rb.getArray.drop 1 ++ [s] := by rw [hga_drop]
  · -- pointer + 1 = capacity: the pointer wraps to 0
    have heq : rb.pointer + 1 = rb.capacity := by omega
    have hmod : (rb.pointer + 1) % rb.capacity = 0 := by
      rw [heq, Nat.mod_self]
    have hnil : rb.buffer.drop (rb.pointer + 1) = [] :=
      List.drop_eq_nil_of_le (by omega)
    calc (rb.push s).getArray
        = rb.buffer.set rb.pointer s := by
          simp only [RingBuffer.push, RingBuffer.getArray, hmod, List.drop_zero,
            List.take_zero, List.append_nil]
      _ = rb.buffer.take rb.pointer ++ [s] := by rw [hset, hnil]
      _ = rb.getArray.drop 1 ++ [s] := by rw [hga_drop, hnil, List.nil_append]

/-- Pushing a list shifts the logical content by its length: the state after
`pushAll` holds the last `capacity` samples of "old content followed by the
new samples". -/
theorem RingBuffer.getArray_pushAll (rb : RingBuffer) (xs : List Sample) (h : rb.WF) :
    (rb.pushAll xs).getArray = (rb.getArray ++ xs).drop xs.length := by
  induction xs generalizing rb with
  | nil => simp [RingBuffer.pushAll]
  | cons x xs ih =>
    have hstep : rb.pushAll (x :: xs) = (rb.push x).pushAll xs := rfl
    rw [hstep, ih _ (rb.wf_push x h), rb.getArray_push x h]
    have hlen_ga : rb.getArray.length = rb.capacity := rb.length_getArray h
    have hptr := h.2
    have hne : rb.getArray ≠ [] := by
      intro hnil
      rw [hnil] at hlen_ga
      simp at hlen_ga
      omega
    obtain ⟨a, l, hal⟩ := List.exists_cons_of_ne_nil hne
    rw [hal]
    simp only [List.length_cons, List.cons_append, List.drop_succ_cons, List.drop_one,
      List.tail_cons]
    simp [List.append_assoc]

/-! ### Message-handling helper lemmas -/

theorem length_applyChannels (t : ℚ) (chans : List (List ℚ)) (bufs : List RingBuffer)
    (idx : ℕ) : (applyChannels t bufs chans idx).length = bufs.length := by
  induction chans generalizing bufs idx with
  | nil => rfl
  | cons ch rest ih =>
    rw [applyChannels]
    by_cases h : idx < bufs.length
    · rw [dif_pos h, ih]
      simp
    · rw [dif_neg h]

/-- `applyChannels` starting at index `idx` never touches a slot below `idx`. -/
theorem applyChannels_getElem_lt (t : ℚ) (chans : List (List ℚ)) (bufs : List RingBuffer)
    (idx k : ℕ) (hk : k < idx) :
    (applyChannels t bufs chans idx)[k]? = bufs[k]? := by
  induction chans generalizing bufs idx with
  | nil => rfl
  | cons ch rest ih =>
    rw [applyChannels]
    by_cases h : idx < bufs.length
    · rw [dif_pos h, ih _ _ (by omega)]
      exact List.getElem?_set_ne (by omega)
    · rw [dif_neg h]

/-- Channel `j` of the message (when it exists and has a buffer) is pushed,
sample by sample, into buffer `idx + j`. -/
theorem applyChannels_getElem_eq (t : ℚ) (chans : List (List ℚ)) (bufs : List RingBuffer)
    (idx j : ℕ) (ch : List ℚ) (rb : RingBuffer)
    (hch : chans[j]? = some ch) (hrb : bufs[idx + j]? = some rb) :
    (applyChannels t bufs chans idx)[idx + j]? =
      some (rb.pushAll (channelSamples t ch 0)) := by
  induction chans generalizing bufs idx j with
  | nil => simp at hch
  | cons c rest ih =>
    have hb : idx + j < bufs.length := by
      by_contra hcon
      rw [List.getElem?_eq_none (by omega)] at hrb
      exact Option.noConfusion hrb
    have hidx : idx < bufs.length := by omega
    rw [applyChannels, dif_pos hidx]
    cases j with
    | zero =>
      have hc : c = ch := by
        simpa using hch
      subst hc
      have hrb0 : bufs.get ⟨idx, hidx⟩ = rb := by
        have : bufs[idx]? = some rb := by simpa using hrb
        have h2 := List.getElem?_eq_getElem hidx
        rw [h2] at this
        simpa [List.get_eq_getElem] using this
      rw [applyChannels_getElem_lt _ _ _ _ _ (by omega)]
      rw [hrb0]
      simpa using List.getElem?_set_self (by simpa using hidx)
    | succ j' =>
      have hch' : rest[j']? = some ch := by simpa using hch
      have hrb' : (bufs.set idx ((bufs.get ⟨idx, hidx⟩).pushAll (channelSamples t c 0)))[idx + 1 + j']? =
          some rb := by
        rw [List.getElem?_set_ne (by omega)]
        have : idx + 1 + j' = idx + (j' + 1) := by omega
        rw [this]
        exact hrb
      have := ih (bufs.set idx ((bufs.get ⟨idx, hidx⟩).pushAll (channelSamples t c 0)))
        (idx + 1) j' hch' hrb'
      have harith : idx + 1 + j' = idx + (j' + 1) := by omega
      rw [harith] at this
      exact this

/-- Index computation for the samples one channel contributes, with the loop
counter starting at `j`. -/
theorem channelSamples_getElem (t : ℚ) (ch : List ℚ) (j i : ℕ) :
    (channelSamples t ch j)[i]? =
      ch[i]?.map fun v => (⟨t + (j + i) * sampleInterval, v⟩ : Sample) := by
  induction ch generalizing j i with
  | nil => simp [channelSamples]
  | cons v vs ih =>
    cases i with
    | zero => simp [channelSamples]
    | succ i' =>
      rw [channelSamples]
      have := ih (j + 1) i'
      simp only [List.getElem?_cons_succ]
      rw [this]
      have harith : (j : ℚ) + 1 + i' = j + (i' + 1) := by ring
      simp [harith]

/-! ### Sorting helper lemmas -/

theorem mem_insertSample (a s : Sample) (l : List Sample) :
    a ∈ insertSample s l ↔ a = s ∨ a ∈ l := by
  induction l with
  | nil => simp [insertSample]
  | cons t ts ih =>
    rw [insertSample]
    by_cases h : s.timestamp ≤ t.timestamp
    · rw [if_pos h]
      simp
    · rw [if_neg h]
      simp [ih]
      tauto

theorem pairwise_insertSample (s : Sample) (l : List Sample)
    (h : l.Pairwise fun a b => a.timestamp ≤ b.timestamp) :
    (insertSample s l).Pairwise fun a b => a.timestamp ≤ b.timestamp := by
  induction l with
  | nil => simp [insertSample]
  | cons t ts ih =>
    rw [insertSample]
    rcases List.pairwise_cons.mp h with ⟨ht, hts⟩
    by_cases hle : s.timestamp ≤ t.timestamp
    · rw [if_pos hle]
      refine List.pairwise_cons.mpr ⟨?_, h⟩
      intro b hb
      rcases List.mem_cons.mp hb with hb | hb
      · rw [hb]
        exact hle
      · exact le_trans hle (ht b hb)
    · rw [if_neg hle]
      refine List.pairwise_cons.mpr ⟨?_, ih hts⟩
      intro b hb
      rcases (mem_insertSample b s ts).mp hb with hb | hb
      · rw [hb]
        exact le_of_lt (lt_of_not_le hle)
      · exact ht b hb

theorem perm_insertSample (s : Sample) (l : List Sample) :
    (insertSample s l).Perm (s :: l) := by
  induction l with
  | nil => simp [insertSample]
  | cons t ts ih =>
    rw [insertSample]
    by_cases h : s.timestamp ≤ t.timestamp
    · rw [if_pos h]
    · rw [if_neg h]
      exact (List.Perm.cons t ih).trans (List.Perm.swap s t ts)

theorem pairwise_sortSamples (l : List Sample) :
    (sortSamples l).Pairwise fun a b => a.timestamp ≤ b.timestamp := by
  induction l with
  | nil => simp [sortSamples]
  | cons s ss ih => exact pairwise_insertSample s _ ih

theorem perm_sortSamples (l : List Sample) : (sortSamples l).Perm l := by
  induction l with
  | nil => simp [sortSamples]
  | cons s ss ih =>
    rw [sortSamples]
    exact (perm_insertSample s (sortSamples ss)).trans (List.Perm.cons s ih)

/-! ### Claim theorems -/

/-- Claim C1: for every `RingBuffer` of capacity `c > 0` that has already
received at least `c` pushes, the next push stores the new sample in the slot
holding the oldest retained sample — the one inserted exactly `c` pushes
earlier — and every other slot's sample is unchanged. -/
theorem claim_C1 (c : ℕ) (xs : List Sample) (s : Sample)
    (hc : 0 < c) (hn : c ≤ xs.length) :
    ((RingBuffer.init c).pushAll xs).buffer[((RingBuffer.init c).pushAll xs).pointer]? =
      xs[xs.length - c]? ∧
    (((RingBuffer.init c).pushAll xs).push s).buffer[((RingBuffer.init c).pushAll xs).pointer]? =
      some s ∧
    ∀ j, j ≠ ((RingBuffer.init c).pushAll xs).pointer →
      (((RingBuffer.init c).pushAll xs).push s).buffer[j]? =
        ((RingBuffer.init c).pushAll xs).buffer[j]? := by
  set rb := (RingBuffer.init c).pushAll xs with hrb
  have hwf : rb.WF := RingBuffer.wf_pushAll _ xs (RingBuffer.wf_init c hc)
  have hcap : rb.capacity = c := by
    rw [hrb, RingBuffer.capacity_pushAll]
    rfl
  have hplen : rb.pointer < rb.buffer.length := by
    rw [hwf.1]
    exact hwf.2
  refine ⟨?_, ?_, ?_⟩
  · -- the slot under the pointer holds the sample pushed exactly `c` pushes ago
    have h0 : rb.getArray[0]? = rb.buffer[rb.pointer]? := by
      rw [RingBuffer.getArray,
        List.getElem?_append_left (by simpa [List.length_drop] using by omega),
        List.getElem?_drop, Nat.add_zero]
    have h1 : rb.getArray = (List.replicate c (⟨0, 0⟩ : Sample) ++ xs).drop xs.length := by
      rw [hrb, RingBuffer.getArray_pushAll _ xs (RingBuffer.wf_init c hc),
        RingBuffer.getArray_init]
    have h2 : rb.getArray[0]? = xs[xs.length - c]? := by
      rw [h1, List.getElem?_drop,
        List.getElem?_append_right (by simpa using by omega)]
      simp
    rw [← h0, h2]
  · rw [RingBuffer.push]
    exact List.getElem?_set_self hplen
  · intro j hj
    rw [RingBuffer.push]
    exact List.getElem?_set_ne (fun h => hj h.symm)

/-- Witness for C1 at capacity 2 and three pushes: the overwritten slot (index
1, the pointer) held the second push, slot 0 is untouched. -/
theorem claim_C1_witness :
    ((((RingBuffer.init 2).pushAll
        [⟨1, 10⟩, ⟨2, 20⟩, ⟨3, 30⟩]).push ⟨4, 40⟩).buffer[0]? =
      ((RingBuffer.init 2).pushAll [⟨1, 10⟩, ⟨2, 20⟩, ⟨3, 30⟩]).buffer[0]?) ∧
    ((((RingBuffer.init 2).pushAll
        [⟨1, 10⟩, ⟨2, 20⟩, ⟨3, 30⟩]).push
          ⟨4, 40⟩).buffer[((RingBuffer.init 2).pushAll
            [⟨1, 10⟩, ⟨2, 20⟩, ⟨3, 30⟩]).pointer]? = some ⟨4, 40⟩) := by
  have h := claim_C1 2 [⟨1, 10⟩, ⟨2, 20⟩, ⟨3, 30⟩] ⟨4, 40⟩ (by decide) (by decide)
  exact ⟨h.2.2 0 (by decide), h.2.1⟩

/-- Claim C3: the backing array keeps length `c` under any sequence of pushes,
and `getArray` always returns exactly `c` samples. -/
theorem claim_C3 (c : ℕ) (xs : List Sample) (hc : 0 < c) :
    ((RingBuffer.init c).pushAll xs).buffer.length = c ∧
    ((RingBuffer.init c).pushAll xs).getArray.length = c := by
  have hwf := RingBuffer.wf_pushAll _ xs (RingBuffer.wf_init c hc)
  have hcap : ((RingBuffer.init c).pushAll xs).capacity = c := by
    rw [RingBuffer.capacity_pushAll]
    rfl
  exact ⟨hwf.1.trans hcap, (RingBuffer.length_getArray _ hwf).trans hcap⟩

/-- Witness for C3 at capacity 1 after one push. -/
theorem claim_C3_witness :
    ((RingBuffer.init 1).pushAll [⟨1, 1⟩]).buffer.length = 1 ∧
    ((RingBuffer.init 1).pushAll [⟨1, 1⟩]).getArray.length = 1 :=
  claim_C3 1 [⟨1, 1⟩] (by decide)

/-- Claim C8: after `n ≥ c` pushes, `getArray` returns exactly the last `c`
pushed samples in insertion order, oldest first and newest last. -/
theorem claim_C8 (c : ℕ) (xs : List Sample) (hc : 0 < c) (hn : c ≤ xs.length) :
    ((RingBuffer.init c).pushAll xs).getArray = xs.drop (xs.length - c) := by
  rw [RingBuffer.getArray_pushAll _ xs (RingBuffer.wf_init c hc),
    RingBuffer.getArray_init, List.drop_append_eq_append_drop]
  have h1 : List.drop xs.length (List.replicate c (⟨0, 0⟩ : Sample)) = [] :=
    List.drop_eq_nil_of_le (by simpa using hn)
  rw [h1, List.length_replicate, List.nil_append]

/-- Witness for C8 at capacity 2 and three pushes: `getArray` is the last two
pushes, oldest first. -/
theorem claim_C8_witness :
    ((RingBuffer.init 2).pushAll [⟨1, 10⟩, ⟨2, 20⟩, ⟨3, 30⟩]).getArray =
      [⟨2, 20⟩, ⟨3, 30⟩] := by
  have h := claim_C8 2 [⟨1, 10⟩, ⟨2, 20⟩, ⟨3, 30⟩] (by decide) (by decide)
  simpa using h

/-- Claim C10: for capacity `c > 0` the pointer starts in `[0, c)` and every
push keeps it there, so `push` writes inside the bounds of the backing
array. -/
theorem claim_C10 (c : ℕ) (hc : 0 < c) :
    (RingBuffer.init c).pointer < c ∧
    ∀ rb : RingBuffer, rb.capacity = c → rb.pointer < c →
      ∀ s : Sample, (rb.push s).pointer < c ∧
        (rb.buffer.length = c → rb.pointer < rb.buffer.length) := by
  refine ⟨by simpa [RingBuffer.init] using hc, ?_⟩
  intro rb hcap hptr s
  refine ⟨?_, fun hlen => by omega⟩
  simpa [RingBuffer.push, hcap] using Nat.mod_lt (rb.pointer + 1) hc

/-- Witness for C10 at capacity 3. -/
theorem claim_C10_witness :
    (RingBuffer.init 3).pointer < 3 ∧ ((RingBuffer.init 3).push ⟨1, 1⟩).pointer < 3 := by
  have h := claim_C10 3 (by decide)
  exact ⟨h.1, (h.2 (RingBuffer.init 3) rfl h.1 ⟨1, 1⟩).1⟩

/-- Claim C2, counterexample to the unrestricted statement: `handleMessage`
keeps only four ring buffers, so a batch with five channels has no buffer for
channel index 4. Processing aborts there (`dataRef.current[4].push` throws, the
`catch` keeps the partial state), and the reading `5` of channel 4 ends up in
no ring buffer, although the message was received and even parsed. -/
theorem claim_C2_counterexample :
    ((handleMessage (List.replicate 4 (RingBuffer.init 4))
        (some ⟨[[1], [2], [3], [4], [5]], 0⟩)).length = 4) ∧
    ((handleMessage (List.replicate 4 (RingBuffer.init 4))
        (some ⟨[[1], [2], [3], [4], [5]], 0⟩)).all
      (fun rb => rb.buffer.all fun s => !(decide (s.value = 5))) = true) := by
  constructor
  · decide
  · decide

/-- Claim C2, amended: for every batch message the (throttled) handler
processes, every channel index `k` that has both a ring buffer and a channel
array in the message gets all of that channel's readings pushed into its ring
buffer, in order. -/
theorem claim_C2_amended (bufs : List RingBuffer) (data : EegBatchData) (k : ℕ)
    (ch : List ℚ) (rb : RingBuffer)
    (hch : data.channels[k]? = some ch) (hrb : bufs[k]? = some rb) :
    (handleMessage bufs (some data))[k]? =
      some (rb.pushAll (channelSamples data.timestamp ch 0)) := by
  rw [handleMessage]
  have h := applyChannels_getElem_eq data.timestamp data.channels bufs 0 k ch rb hch
    (by simpa using hrb)
  simpa using h

/-- Witness for the amended C2: a two-reading channel 0 lands, in order, in
buffer 0. -/
theorem claim_C2_amended_witness :
    (handleMessage [RingBuffer.init 3] (some ⟨[[7, 8]], 100⟩))[0]? =
      some ((RingBuffer.init 3).pushAll (channelSamples 100 [7, 8] 0)) :=
  claim_C2_amended [RingBuffer.init 3] ⟨[[7, 8]], 100⟩ 0 [7, 8] (RingBuffer.init 3)
    rfl rfl

/-- Claim C4: the `i`-th reading of a channel is stored with its raw value
unchanged and timestamp `t + i * (1000 / 250)`. -/
theorem claim_C4 (t : ℚ) (ch : List ℚ) (i : ℕ) :
    (channelSamples t ch 0)[i]? =
      ch[i]?.map fun v => (⟨t + i * (1000 / 250), v⟩ : Sample) := by
  have h := channelSamples_getElem t ch 0 i
  have hrate : sampleInterval = 1000 / 250 := by
    norm_num [sampleInterval, SAMPLE_RATE]
  simpa [hrate] using h

/-- Claim C5: a message whose payload fails to parse is swallowed by the
`catch` and leaves every ring buffer unchanged. -/
theorem claim_C5 (bufs : List RingBuffer) :
    handleMessage bufs none = bufs ∧
    ∀ k : ℕ, (handleMessage bufs none)[k]? = bufs[k]? :=
  ⟨rfl, fun _ => rfl⟩

/-- Claim C6: the redraw selects exactly the samples with timestamp in
`[now - 2000, now]`, maps age `0` to the right edge `x = GRAPH_WIDTH` and age
`2000` to the left edge `x = 0`, and shifts every sample left as `now`
advances. -/
theorem claim_C6 (now : ℚ) (l : List Sample) (s : Sample) :
    (s ∈ selectSamples now l ↔
      s ∈ l ∧ now - 2000 ≤ s.timestamp ∧ s.timestamp ≤ now) ∧
    xCoord now s = GRAPH_WIDTH - (now - s.timestamp) * GRAPH_WIDTH / 2000 ∧
    (s.timestamp = now → xCoord now s = GRAPH_WIDTH) ∧
    (s.timestamp = now - 2000 → xCoord now s = 0) ∧
    (∀ d : ℚ, xCoord (now + d) s = xCoord now s - d * (GRAPH_WIDTH / WINDOW_DURATION)) := by
  refine ⟨?_, ?_, ?_, ?_, ?_⟩
  · simp [selectSamples, List.mem_filter, WINDOW_DURATION, and_assoc]
  · simp [xCoord, WINDOW_DURATION]
  · intro h
    simp [xCoord, h, GRAPH_WIDTH, WINDOW_DURATION]
  · intro h
    rw [xCoord, h]
    norm_num [GRAPH_WIDTH, WINDOW_DURATION]
  · intro d
    rw [xCoord, xCoord, GRAPH_WIDTH, WINDOW_DURATION]
    ring

/-- Witness for C6: a sample of age 0 is drawn at the right edge, one of age
2000 at the left edge, and both are selected. -/
theorem claim_C6_witness :
    xCoord 3000 ⟨3000, 1⟩ = GRAPH_WIDTH ∧ xCoord 3000 ⟨1000, 1⟩ = 0 ∧
    (⟨3000, 1⟩ : Sample) ∈ selectSamples 3000 [⟨3000, 1⟩] := by
  refine ⟨(claim_C6 3000 [] ⟨3000, 1⟩).2.2.1 rfl,
    (claim_C6 3000 [] ⟨1000, 1⟩).2.2.2.1 (by norm_num), ?_⟩
  exact ((claim_C6 3000 [⟨3000, 1⟩] ⟨3000, 1⟩).1).mpr
    ⟨by simp, by norm_num, le_refl _⟩

/-- Claim C7: the polyline vertices `draw` emits are the in-window samples in
nondecreasing timestamp order — a permutation of the selected samples, sorted
by timestamp. -/
theorem claim_C7 (now : ℚ) (samples : List Sample) :
    (drawVertices now samples).Pairwise (fun a b => a.timestamp ≤ b.timestamp) ∧
    (drawVertices now samples).Perm (selectSamples now samples) := by
  rw [drawVertices]
  exact ⟨pairwise_sortSamples _, perm_sortSamples _⟩

/-- Claim C9: `yScale` is affine and strictly decreasing, sends `-1.5` to the
bottom (`GRAPH_HEIGHT`), `1.5` to the top (`0`), `0` to mid-height, and maps
values outside `[-1.5, 1.5]` outside `[0, GRAPH_HEIGHT]` without clamping. -/
theorem claim_C9 :
    yScale (-1.5) = GRAPH_HEIGHT ∧ yScale 1.5 = 0 ∧ yScale 0 = GRAPH_HEIGHT / 2 ∧
    (∀ v : ℚ, yScale v = -(GRAPH_HEIGHT / 3) * v + GRAPH_HEIGHT / 2) ∧
    (∀ v1 v2 : ℚ, v1 < v2 → yScale v2 < yScale v1) ∧
    (∀ v : ℚ, v < -1.5 → GRAPH_HEIGHT < yScale v) ∧
    (∀ v : ℚ, 1.5 < v → yScale v < 0) := by
  have hval : ∀ v : ℚ, yScale v = -(100 / 3) * v + 50 := by
    intro v
    rw [yScale]
    norm_num [GRAPH_HEIGHT]
    ring
  refine ⟨?_, ?_, ?_, ?_, ?_, ?_, ?_⟩
  · rw [hval]
    norm_num [GRAPH_HEIGHT]
  · rw [hval]
    norm_num
  · rw [hval]
    norm_num [GRAPH_HEIGHT]
  · intro v
    rw [hval]
    norm_num [GRAPH_HEIGHT]
  · intro v1 v2 h
    rw [hval, hval]
    linarith
  · intro v h
    rw [hval, GRAPH_HEIGHT]
    linarith
  · intro v h
    rw [hval]
    linarith

/-- Witness for C9: mid-height at `0`, and `yScale 1 < yScale 0`. -/
theorem claim_C9_witness :
    yScale 0 = GRAPH_HEIGHT / 2 ∧ yScale 1 < yScale 0 :=
  ⟨claim_C9.2.2.1, claim_C9.2.2.2.2.1 0 1 (by decide)⟩

end EegKiosk
